import Mathlib

/-!
Verification development for the schema-merge subsystem (Go package `schema`):
`identifier.go`, `sqlparser.go`, `merge.go`.  Strings are modelled as `List Char`
(Go strings are byte sequences; all inputs of interest are ASCII, where the two
views agree).  Each definition is a direct translation of the corresponding Go
function; loops become folds/recursion, `nil` slices become `[]`, and the two
`regexp` patterns of `sqlparser.go` are hand-compiled into backtracking matchers
with Go's leftmost-first semantics (ordered alternation, greedy/lazy
quantifiers).
-/

set_option maxRecDepth 10000
set_option maxHeartbeats 1000000
set_option synthInstance.maxHeartbeats 400000

/-- Shorthand: the character list of a string literal. -/
abbrev S (s : String) : List Char := s.data

/-- Go `unicode.IsSpace` (the White_Space code points). -/
def isGoSpace (c : Char) : Bool :=
  c == ' ' || c == '\t' || c == '\n' || (c.toNat == 0x0b) || (c.toNat == 0x0c) ||
  c == '\r' || c.toNat == 0x85 || c.toNat == 0xa0 || c.toNat == 0x1680 ||
  (0x2000 ≤ c.toNat && c.toNat ≤ 0x200a) || c.toNat == 0x2028 || c.toNat == 0x2029 ||
  c.toNat == 0x202f || c.toNat == 0x205f || c.toNat == 0x3000

/-- Go `strings.TrimSpace`: drop leading and trailing white space. -/
def trimSpace (s : List Char) : List Char :=
  ((s.dropWhile isGoSpace).reverse.dropWhile isGoSpace).reverse

/-- Go `strings.Split(s, ".")` (single-character separator): `"" ↦ [""]`,
and in general one part per `.`-separated segment. -/
def splitOnDot : List Char → List (List Char)
  | [] => [[]]
  | c :: cs =>
    let rest := splitOnDot cs
    if c = '.' then [] :: rest
    else
      match rest with
      | [] => [[c]]
      | p :: ps => (c :: p) :: ps

/-- Go `strings.Join(parts, ".")`. -/
def joinDot : List (List Char) → List Char
  | [] => []
  | [p] => p
  | p :: rest => p ++ '.' :: joinDot rest

/-- `identifier.go` `QualifiedName`: parsed components of a qualified object name. -/
structure QualifiedName where
  Database : List Char
  Schema : List Char
  Table : List Char
deriving DecidableEq, Repr

/-- `identifier.go` `NormalizeBrackets`: remove every `[` and `]` character. -/
def NormalizeBrackets (identifier : List Char) : List Char :=
  identifier.filter (fun c => !(c == '[' || c == ']'))

/-- `identifier.go` `ParseQualifiedName`: strip brackets, split on `.`, then
case on the number of parts (1 → Table, 2 → Schema.Table, 3 → all three,
more than 3 → the last three). -/
def ParseQualifiedName (fullName : List Char) : QualifiedName :=
  let parts := splitOnDot (NormalizeBrackets fullName)
  match parts with
  | [t] => ⟨[], [], t⟩
  | [s, t] => ⟨[], s, t⟩
  | [d, s, t] => ⟨d, s, t⟩
  | ps =>
    if 3 < ps.length then
      match ps.drop (ps.length - 3) with
      | [d, s, t] => ⟨d, s, t⟩
      | _ => ⟨[], [], []⟩
    else ⟨[], [], []⟩

/-- `identifier.go` `BracketIdentifier`: trim, pass through empty or
already-bracketed input, otherwise wrap in one bracket pair. -/
def BracketIdentifier (identifier : List Char) : List Char :=
  let id := trimSpace identifier
  if id = [] then id
  else if id.head? = some '[' ∧ id.getLast? = some ']' then id
  else '[' :: id ++ [']']

/-- `identifier.go` `BuildQualifiedName`: join the non-empty components with
`.`, bracketing each when `useBrackets` is set. -/
def BuildQualifiedName (table schema database : List Char) (useBrackets : Bool) : List Char :=
  joinDot
    ((if database ≠ [] then [if useBrackets then BracketIdentifier database else database] else []) ++
     (if schema ≠ [] then [if useBrackets then BracketIdentifier schema else schema] else []) ++
     (if table ≠ [] then [if useBrackets then BracketIdentifier table else table] else []))

/-- `identifier.go` `StandardizeTableName`: parse, fill empty Database/Schema
from the defaults, rebuild. -/
def StandardizeTableName (tableName defaultDB defaultSchema : List Char) (useBrackets : Bool) :
    List Char :=
  if tableName = [] then tableName
  else
    let parsed := ParseQualifiedName tableName
    let db := if parsed.Database = [] then defaultDB else parsed.Database
    let schema := if parsed.Schema = [] then defaultSchema else parsed.Schema
    BuildQualifiedName parsed.Table schema db useBrackets

/-- Go `s[idx+1:]` after `strings.LastIndex(s, sep)` for a one-character
separator: the segment after the last occurrence of `sep` (the whole string
when absent).  Computed as a left fold, restarting at each separator. -/
def afterLastChar (sep : Char) (s : List Char) : List Char :=
  s.foldl (fun acc c => if c = sep then [] else acc ++ [c]) []

/-- Go `s[:idx]` for `idx = strings.LastIndex(s, ".")`: everything before the
last `.` (the whole string when absent). -/
def beforeLastDot (s : List Char) : List Char :=
  if '.' ∈ s then ((s.reverse.dropWhile (fun c => !(c == '.'))).tail).reverse else s

/-- Go `strings.TrimSuffix`. -/
def trimSuffixL (s suffixStr : List Char) : List Char :=
  if suffixStr.isSuffixOf s then s.take (s.length - suffixStr.length) else s

/-- `identifier.go` `ExtractDatabaseName`: strip directories and extension,
drop a trailing `_schema`/`-schema`, uppercase. -/
def ExtractDatabaseName (filepath : List Char) : List Char :=
  let filename := afterLastChar '/' filepath
  let filename := afterLastChar '\\' filename
  let filename := beforeLastDot filename
  let filename := trimSuffixL filename (S "_schema")
  let filename := trimSuffixL filename (S "-schema")
  filename.map Char.toUpper

/-! ### `sqlparser.go` — hand-compiled regular-expression matchers

The two `regexp.MustCompile` patterns of `ExtractJoinsFromSQL` use only
quantifiers over single-character classes, so each is compiled into a
continuation-passing backtracking matcher that reproduces Go's leftmost-first
semantics: alternatives are tried in written order, greedy quantifiers try the
longest repetition first, lazy quantifiers the shortest.
-/

/-- Go regexp `\w` (ASCII word character). -/
def isWordChar (c : Char) : Bool :=
  (0x61 ≤ c.toNat && c.toNat ≤ 0x7a) || (0x41 ≤ c.toNat && c.toNat ≤ 0x5a) ||
  (0x30 ≤ c.toNat && c.toNat ≤ 0x39) || c == '_'

/-- Go regexp `\s` (`[\t\n\f\r ]`). -/
def isReSpace (c : Char) : Bool :=
  c == ' ' || c == '\t' || c == '\n' || c.toNat == 0x0c || c == '\r'

/-- The character class `[\[\w\]\.]` of the table-name capture. -/
def isTableChar (c : Char) : Bool :=
  isWordChar c || c == '[' || c == ']' || c == '.'

/-- The character class `[^;]` of the lazy ON-condition capture. -/
def isNotSemi (c : Char) : Bool := !(c == ';')

/-- Case-insensitive literal match (the patterns carry `(?i)`; all literals are
ASCII, where Go's case folding and `Char.toUpper` agree): consume the pattern,
return the rest of the input. -/
def matchCI : List Char → List Char → Option (List Char)
  | [], s => some s
  | _ :: _, [] => none
  | p :: ps, c :: cs => if p.toUpper == c.toUpper then matchCI ps cs else none

/-- Backtracking driver for a greedy repetition: try `k n`, `k (n-1)`, …, `k 1`. -/
def tryDown (k : Nat → Option α) : Nat → Option α
  | 0 => none
  | n + 1 => (k (n + 1)).orElse (fun _ => tryDown k n)

/-- Backtracking driver for a greedy star: try `k n`, …, `k 1`, `k 0`. -/
def tryDown0 (k : Nat → Option α) : Nat → Option α
  | 0 => k 0
  | n + 1 => (k (n + 1)).orElse (fun _ => tryDown0 k n)

/-- Backtracking driver for a lazy repetition: try `k lo`, `k (lo+1)`, …
(`fuel` bounds the number of attempts). -/
def tryUp (k : Nat → Option α) : Nat → Nat → Option α
  | _, 0 => none
  | lo, fuel + 1 => (k lo).orElse (fun _ => tryUp k (lo + 1) fuel)

/-- Greedy `p+`: split off a non-empty run of `p`-characters, longest first,
and feed (captured run, rest) to the continuation. -/
def greedyPlus (p : Char → Bool) (s : List Char) (k : List Char → List Char → Option α) :
    Option α :=
  tryDown (fun i => k (s.take i) (s.drop i)) (s.takeWhile p).length

/-- Greedy `p*`: like `greedyPlus` but the empty run is allowed (tried last). -/
def greedyStar (p : Char → Bool) (s : List Char) (k : List Char → List Char → Option α) :
    Option α :=
  tryDown0 (fun i => k (s.take i) (s.drop i)) (s.takeWhile p).length

/-- Lazy `p+?`: split off a non-empty run of `p`-characters, shortest first. -/
def lazyPlus (p : Char → Bool) (s : List Char) (k : List Char → List Char → Option α) :
    Option α :=
  tryUp (fun i => if (s.take i).all p then k (s.take i) (s.drop i) else none) 1
    (s.takeWhile p).length

/-- `LIT\s+` (case-insensitive literal followed by mandatory spaces). -/
def ciThenSpaces (lit : List Char) (k : List Char → Option α) (s : List Char) : Option α :=
  match matchCI lit s with
  | some s1 => greedyPlus isReSpace s1 (fun _ rest => k rest)
  | none => none

/-- `\s+LIT` (mandatory spaces followed by a case-insensitive literal). -/
def spacesThenCI (lit : List Char) (k : List Char → Option α) (s : List Char) : Option α :=
  greedyPlus isReSpace s (fun _ s1 =>
    match matchCI lit s1 with
    | some s2 => k s2
    | none => none)

/-- One raw submatch of the join pattern: `whole` is `match[0]`, `table`,
`alias`, `cond` the three capture groups, `rest` the input after the match. -/
structure JoinMatch where
  whole : List Char
  table : List Char
  aliasName : List Char
  cond : List Char
  rest : List Char
deriving DecidableEq, Repr

/-- Terminator alternation
`(?:\s+WHERE|\s+GROUP|\s+ORDER|\s+HAVING|\s+UNION|\s+LEFT|\s+RIGHT|\s+INNER|\s+JOIN|;|\s*$)`,
alternatives in written order. -/
def joinTerminator (s : List Char) (k : List Char → Option α) : Option α :=
  (spacesThenCI (S "WHERE") k s).orElse fun _ =>
  (spacesThenCI (S "GROUP") k s).orElse fun _ =>
  (spacesThenCI (S "ORDER") k s).orElse fun _ =>
  (spacesThenCI (S "HAVING") k s).orElse fun _ =>
  (spacesThenCI (S "UNION") k s).orElse fun _ =>
  (spacesThenCI (S "LEFT") k s).orElse fun _ =>
  (spacesThenCI (S "RIGHT") k s).orElse fun _ =>
  (spacesThenCI (S "INNER") k s).orElse fun _ =>
  (spacesThenCI (S "JOIN") k s).orElse fun _ =>
  (match s with
   | ';' :: r => k r
   | _ => none).orElse fun _ =>
  greedyStar isReSpace s (fun _ r => if r = [] then k r else none)

/-- `([\w]+)\s+ON\s+([^;]+?)TERM` — the alias capture onwards (`orig` is the
suffix at which the whole match started, used to reconstruct `match[0]`). -/
def joinAliasPart (orig tbl s : List Char) : Option JoinMatch :=
  greedyPlus isWordChar s (fun al s1 =>
    greedyPlus isReSpace s1 (fun _ s2 =>
      match matchCI (S "ON") s2 with
      | none => none
      | some s3 =>
        greedyPlus isReSpace s3 (fun _ s4 =>
          lazyPlus isNotSemi s4 (fun cond s5 =>
            joinTerminator s5 (fun s6 =>
              some { whole := orig.take (orig.length - s6.length), table := tbl,
                     aliasName := al, cond := cond, rest := s6 })))))

/-- `JOIN\s+([\[\w\]\.]+)\s+(?:AS\s+)?…` — from the JOIN keyword onwards. -/
def joinAfterKw (orig s : List Char) : Option JoinMatch :=
  match matchCI (S "JOIN") s with
  | none => none
  | some s1 =>
    greedyPlus isReSpace s1 (fun _ s2 =>
      greedyPlus isTableChar s2 (fun tbl s3 =>
        greedyPlus isReSpace s3 (fun _ s4 =>
          (ciThenSpaces (S "AS") (fun s5 => joinAliasPart orig tbl s5) s4).orElse
            (fun _ => joinAliasPart orig tbl s4))))

/-- `(?:OUTER\s+)?JOIN…` — the second optional prefix onwards. -/
def joinAfterPrefix (orig s : List Char) : Option JoinMatch :=
  (ciThenSpaces (S "OUTER") (fun s1 => joinAfterKw orig s1) s).orElse
    (fun _ => joinAfterKw orig s)

/-- Attempt the whole join pattern anchored at the start of `s`:
`(?:LEFT\s+|RIGHT\s+|INNER\s+|OUTER\s+|CROSS\s+)?(?:OUTER\s+)?JOIN…`. -/
def matchJoinAt (s : List Char) : Option JoinMatch :=
  (ciThenSpaces (S "LEFT") (fun s1 => joinAfterPrefix s s1) s).orElse fun _ =>
  (ciThenSpaces (S "RIGHT") (fun s1 => joinAfterPrefix s s1) s).orElse fun _ =>
  (ciThenSpaces (S "INNER") (fun s1 => joinAfterPrefix s s1) s).orElse fun _ =>
  (ciThenSpaces (S "OUTER") (fun s1 => joinAfterPrefix s s1) s).orElse fun _ =>
  (ciThenSpaces (S "CROSS") (fun s1 => joinAfterPrefix s s1) s).orElse fun _ =>
  joinAfterPrefix s s

/-- Go `joinPattern.FindAllStringSubmatch(sqlDef, -1)`: scan left to right,
emit the leftmost-first match, continue after its end.  Every match consumes at
least the `JOIN` keyword, so `fuel = length + 1` never runs out; it only makes
termination structural. -/
def findAllJoin : Nat → List Char → List JoinMatch
  | 0, _ => []
  | fuel + 1, s =>
    match matchJoinAt s with
    | some m => m :: findAllJoin fuel m.rest
    | none =>
      match s with
      | [] => []
      | _ :: tail => findAllJoin fuel tail

/-- One raw submatch of the column pattern
`(\[?[\w]+\]?)\.(\[?\w+\]?)\s*=\s*(\[?[\w]+\]?)\.(\[?\w+\]?)`:
the four capture groups and the rest of the input. -/
structure ColMatch where
  g1 : List Char
  g2 : List Char
  g3 : List Char
  g4 : List Char
  rest : List Char
deriving DecidableEq, Repr

/-- Optional single character `c?` with greedy backtracking (consume first). -/
def optChar (c : Char) (k : List Char → Option α) (s : List Char) : Option α :=
  match s with
  | c1 :: r => if c1 == c then (k r).orElse (fun _ => k (c1 :: r)) else k (c1 :: r)
  | [] => k []

/-- One capture token `\[?\w+\]?`; the capture includes any consumed brackets. -/
def colToken (s : List Char) (k : List Char → List Char → Option α) : Option α :=
  optChar '[' (fun s1 =>
    greedyPlus isWordChar s1 (fun _ s2 =>
      optChar ']' (fun s3 => k (s.take (s.length - s3.length)) s3) s2)) s

/-- Attempt the whole column pattern anchored at the start of `s`. -/
def matchColAt (s : List Char) : Option ColMatch :=
  colToken s (fun g1 s1 =>
    match s1 with
    | '.' :: s2 =>
      colToken s2 (fun g2 s3 =>
        greedyStar isReSpace s3 (fun _ s4 =>
          match s4 with
          | '=' :: s5 =>
            greedyStar isReSpace s5 (fun _ s6 =>
              colToken s6 (fun g3 s7 =>
                match s7 with
                | '.' :: s8 =>
                  colToken s8 (fun g4 s9 => some ⟨g1, g2, g3, g4, s9⟩)
                | _ => none))
          | _ => none))
    | _ => none)

/-- Go `columnPattern.FindAllStringSubmatch(onCondition, -1)` (fuel as in
`findAllJoin`; every match consumes at least one word character). -/
def findAllCols : Nat → List Char → List ColMatch
  | 0, _ => []
  | fuel + 1, s =>
    match matchColAt s with
    | some m => m :: findAllCols fuel m.rest
    | none =>
      match s with
      | [] => []
      | _ :: tail => findAllCols fuel tail

/-- Go `strings.Contains(s, sub)`. -/
def containsSub (s sub : List Char) : Bool :=
  match s with
  | [] => sub.isEmpty
  | _ :: tail => (sub.isPrefixOf s) || containsSub tail sub

/-- The join-type classification of `sqlparser.go` lines 67–76: uppercase the
whole matched clause text (`match[0]`) and test substrings in the order
LEFT, RIGHT, FULL, defaulting to INNER. -/
def joinTypeOf (matchText : List Char) : List Char :=
  let matchUpper := matchText.map Char.toUpper
  if containsSub matchUpper (S "LEFT") then S "LEFT"
  else if containsSub matchUpper (S "RIGHT") then S "RIGHT"
  else if containsSub matchUpper (S "FULL") then S "FULL"
  else S "INNER"

/-- Helper for `collapseWs`: `prevSpace` records whether the previous character
belonged to a (already emitted) whitespace run. -/
def collapseWsAux (prevSpace : Bool) : List Char → List Char
  | [] => []
  | c :: cs =>
    if isReSpace c then (if prevSpace then [] else [' ']) ++ collapseWsAux true cs
    else c :: collapseWsAux false cs

/-- Go `regexp.MustCompile` of `\s+` with `ReplaceAllString(s, " ")`: collapse
every maximal run of `\s`-characters into a single space. -/
def collapseWs (s : List Char) : List Char := collapseWsAux false s

/-- The ON-condition display clean-up of `sqlparser.go` lines 78–80: `\n ↦ ' '`,
delete `\r`, collapse whitespace runs, trim. -/
def cleanCond (onCondition : List Char) : List Char :=
  trimSpace (collapseWs ((onCondition.map (fun c => if c = '\n' then ' ' else c)).filter
    (fun c => !(c == '\r'))))

/-- `sqlparser.go` `JoinRelation`. -/
structure JoinRelation where
  FromTable : List Char
  FromColumns : List (List Char)
  ToTable : List Char
  ToColumns : List (List Char)
  JoinType : List Char
  OnCondition : List Char
deriving DecidableEq, Repr

/-- `sqlparser.go` `ExtractJoinsFromSQL`: empty definition text yields no
facts; otherwise every join-pattern match contributes one `JoinRelation` per
equality pair found in its ON condition. -/
def ExtractJoinsFromSQL (sqlDef sourceTable defaultDB defaultSchema : List Char)
    (useBrackets : Bool) : List JoinRelation :=
  if sqlDef = [] then []
  else
    (findAllJoin (sqlDef.length + 1) sqlDef).flatMap (fun m =>
      let joinedTable := trimSpace m.table
      let onCondition := trimSpace m.cond
      let joinedTableStd := StandardizeTableName joinedTable defaultDB defaultSchema useBrackets
      (findAllCols (onCondition.length + 1) onCondition).map (fun cm =>
        { FromTable := sourceTable
          FromColumns := [NormalizeBrackets (trimSpace cm.g2)]
          ToTable := joinedTableStd
          ToColumns := [NormalizeBrackets (trimSpace cm.g4)]
          JoinType := joinTypeOf m.whole
          OnCondition := cleanCond onCondition }))

/-! ### Data model (upstream `tbls` schema entities)

Only the fields that the three merge-subsystem source files read or write are
modelled; Go zero values become `[]` / `none`.  `ReferencedTables` entries are
`*Table` in Go, but the merge code only ever sets and reads their `Name`, so
they are modelled by a name-only record. -/

/-- Relationship multiplicity (upstream `Cardinality` string constants). -/
inductive Cardinality where
  | UnknownCardinality
  | ZeroOrOne
  | ExactlyOne
  | ZeroOrMore
  | OneOrMore
deriving DecidableEq, Repr

export Cardinality (UnknownCardinality ZeroOrOne ExactlyOne ZeroOrMore OneOrMore)

/-- Alias for `Cardinality`, needed because `Relation`'s field of that name
shadows the type name for later fields. -/
abbrev CardinalityKind := Cardinality

/-- A column; the merge subsystem only uses its name. -/
structure Column where
  Name : List Char
deriving DecidableEq, Repr

/-- A name-only reference to another table (`*Table` used as a reference). -/
structure TableRef where
  Name : List Char
deriving DecidableEq, Repr

/-- A table constraint; optional owning-table and referenced-table names. -/
structure Constraint where
  Table : Option (List Char)
  ReferencedTable : Option (List Char)
deriving DecidableEq, Repr

/-- An index; optional owning-table name. -/
structure Index where
  Table : Option (List Char)
deriving DecidableEq, Repr

/-- A table (or view): the fields touched by `merge.go`/`sqlparser.go`. -/
structure Table where
  Name : List Char
  «Type» : List Char
  Def : List Char
  ReferencedTables : List TableRef
  Constraints : List Constraint
  Indexes : List Index
deriving DecidableEq, Repr

/-- A relation between a child table and a parent table. -/
structure Relation where
  Table : TableRef
  Columns : List Column
  Cardinality : Cardinality
  ParentTable : TableRef
  ParentColumns : List Column
  ParentCardinality : CardinalityKind
  Def : List Char
  Virtual : Bool
deriving DecidableEq, Repr

/-- A stored function; only its name is standardized. -/
structure Function where
  Name : List Char
deriving DecidableEq, Repr

/-- Driver metadata; only `CurrentSchema` is read. -/
structure DriverMeta where
  CurrentSchema : List Char
deriving DecidableEq, Repr

/-- Driver information; only `Meta.CurrentSchema` is read. -/
structure Driver where
  Meta : Option DriverMeta
deriving DecidableEq, Repr

/-- A schema document. -/
structure Schema where
  Name : List Char
  Desc : List Char
  Tables : List Table
  Relations : List Relation
  Functions : List Function
  Driver : Option Driver
deriving DecidableEq, Repr

/-- The loop body of `ExtractRelationsFromDefinitions` (lines 115–159): turn
one discovered `JoinRelation` into a virtual `Relation`, mapping the join type
to a cardinality pair (`LEFT`/`RIGHT` special-cased, everything else the
default `ExactlyOne`/`ZeroOrMore`). -/
def relationFromJoin (joinInfo : JoinRelation) : Relation :=
  let cardPair : Cardinality × Cardinality :=
    if joinInfo.JoinType = S "LEFT" then (ZeroOrOne, ZeroOrMore)
    else if joinInfo.JoinType = S "RIGHT" then (ZeroOrMore, ZeroOrOne)
    else (ExactlyOne, ZeroOrMore)
  let def1 :=
    if 100 < joinInfo.OnCondition.length then joinInfo.OnCondition.take 100 ++ S "..."
    else joinInfo.OnCondition
  { Table := { Name := joinInfo.FromTable }
    Columns := joinInfo.FromColumns.map (fun col => { Name := col })
    Cardinality := cardPair.1
    ParentTable := { Name := joinInfo.ToTable }
    ParentColumns := joinInfo.ToColumns.map (fun col => { Name := col })
    ParentCardinality := cardPair.2
    Def := '[' :: joinInfo.JoinType ++ S " JOIN] " ++ def1
    Virtual := true }

/-- `sqlparser.go` `ExtractRelationsFromDefinitions`: for each view or base
table with a non-empty SQL definition, extract joins and derive virtual
relations. -/
def ExtractRelationsFromDefinitions (tables : List Table) (defaultDB defaultSchema : List Char)
    (useBrackets : Bool) : List Relation :=
  tables.flatMap (fun table =>
    if table.«Type» = S "VIEW" ∨ table.«Type» = S "MATERIALIZED VIEW" ∨
        table.«Type» = S "BASE TABLE" then
      if table.Def = [] then []
      else (ExtractJoinsFromSQL table.Def table.Name defaultDB defaultSchema useBrackets).map
        relationFromJoin
    else [])

/-! ### Dedup engine (`sqlparser.go` `DeduplicateRelations`)

The Go function accumulates survivors in a `map[relKey]*Relation` and finally
iterates the map.  Go map iteration order is unspecified; the model uses an
insertion-ordered association list, which realises the same key → survivor
function.  None of the verified properties depend on output order. -/

/-- The identity key of a relation (`relKey` in the Go source): child table
name, comma-joined child column names, parent table name, comma-joined parent
column names. -/
structure RelKey where
  table : List Char
  columns : List Char
  parentTable : List Char
  parentCols : List Char
deriving DecidableEq, Repr

/-- Go `strings.Join(names, ",")`. -/
def joinComma : List (List Char) → List Char
  | [] => []
  | [p] => p
  | p :: rest => p ++ ',' :: joinComma rest

/-- The key under which a relation is deduplicated. -/
def relKeyOf (r : Relation) : RelKey :=
  { table := r.Table.Name
    columns := joinComma (r.Columns.map (fun c => c.Name))
    parentTable := r.ParentTable.Name
    parentCols := joinComma (r.ParentColumns.map (fun c => c.Name)) }

/-- Association-list lookup (`seen[key]`). -/
def lookupRel (k : RelKey) : List (RelKey × Relation) → Option Relation
  | [] => none
  | (k1, r) :: rest => if k1 = k then some r else lookupRel k rest

/-- Association-list update of an existing key (`seen[key] = relation`). -/
def replaceRel (k : RelKey) (newR : Relation) :
    List (RelKey × Relation) → List (RelKey × Relation)
  | [] => []
  | (k1, r) :: rest =>
    if k1 = k then (k1, newR) :: rest else (k1, r) :: replaceRel k newR rest

/-- The accumulation loop of `DeduplicateRelations`: first occurrence of a key
is stored; a later occurrence replaces it only when the later relation is
non-virtual and the stored one is virtual. -/
def dedupGo : List Relation → List (RelKey × Relation) → List (RelKey × Relation)
  | [], seen => seen
  | r :: rest, seen =>
    match lookupRel (relKeyOf r) seen with
    | none => dedupGo rest (seen ++ [(relKeyOf r, r)])
    | some existing =>
      if !r.Virtual && existing.Virtual then dedupGo rest (replaceRel (relKeyOf r) r seen)
      else dedupGo rest seen

/-- `sqlparser.go` `DeduplicateRelations`. -/
def DeduplicateRelations (relations : List Relation) : List Relation :=
  (dedupGo relations []).map Prod.snd

/-- Decidable test: the relation has identity key `k` and is non-virtual. -/
def nvPred (k : RelKey) (r : Relation) : Bool :=
  decide (relKeyOf r = k) && !r.Virtual

/-- Decidable test: the relation has identity key `k`. -/
def keyPred (k : RelKey) (r : Relation) : Bool :=
  decide (relKeyOf r = k)

/-- The survivor for a key, stated the way the specification words it: the
first non-virtual candidate with that key when one exists, otherwise the
first candidate with that key. -/
def survivorSpec (k : RelKey) (rels : List Relation) : Option Relation :=
  match rels.find? (nvPred k) with
  | some r => some r
  | none => rels.find? (keyPred k)

/-! ### Merge orchestrator (`merge.go`)

`LoadSchemaFromJSON` is an I/O collaborator; the model takes each input as the
already-loaded `Schema` paired with its file path.  The external post-merge
`Repair` step (upstream `tbls`, not part of these sources) only relinks
in-memory references and aborts the merge on failure; the returned statistics
are computed before it runs, so the model covers everything up to and
including deduplication. -/

/-- `merge.go` `MergeConfig`; `DatabaseMapping` (a Go map keyed by file path)
is modelled as an association list. -/
structure MergeConfig where
  Name : List Char
  Description : List Char
  DefaultSchema : List Char
  UseBrackets : Bool
  ExtractViewRelations : Bool
  DatabaseMapping : List (List Char × List Char)
deriving DecidableEq, Repr

/-- `merge.go` `MergeStats`. -/
structure MergeStats where
  TotalTables : Nat
  TotalViews : Nat
  TotalRelations : Nat
  TotalFunctions : Nat
  Databases : List (List Char)
  CrossDBRelations : Nat
  ExtractedRelations : Nat
  DeduplicatedCount : Nat
deriving DecidableEq, Repr

/-- Go map lookup `config.DatabaseMapping[jsonFile]`. -/
def lookupMapping (m : List (List Char × List Char)) (key : List Char) :
    Option (List Char) :=
  match m with
  | [] => none
  | (k, v) :: rest => if k = key then some v else lookupMapping rest key

/-- Go `strings.Trim(s, "\"")`: drop leading and trailing `"` characters. -/
def trimQuotes (s : List Char) : List Char :=
  ((s.dropWhile (fun c => c == '"')).reverse.dropWhile (fun c => c == '"')).reverse

/-- `merge.go` `updateTableNames`: standardize each table's own name and the
names nested in its referenced tables, constraints, and indexes.  A
constraint's referenced table keeps an explicit database component of its own
instead of taking the current prefix. -/
def updateTableNames (tables : List Table) (dbPrefix schemaName : List Char)
    (useBrackets : Bool) : List Table :=
  tables.map (fun table =>
    { table with
      Name := StandardizeTableName table.Name dbPrefix schemaName useBrackets
      ReferencedTables := table.ReferencedTables.map (fun ref =>
        { Name := StandardizeTableName ref.Name dbPrefix schemaName useBrackets })
      Constraints := table.Constraints.map (fun c =>
        { c with
          Table := c.Table.map (fun t => StandardizeTableName t dbPrefix schemaName useBrackets)
          ReferencedTable := c.ReferencedTable.map (fun rt =>
            if rt ≠ [] then
              let refDB :=
                if (ParseQualifiedName rt).Database = [] then dbPrefix
                else (ParseQualifiedName rt).Database
              StandardizeTableName rt refDB schemaName useBrackets
            else rt) })
      Indexes := table.Indexes.map (fun idx =>
        { idx with
          Table := idx.Table.map (fun t =>
            StandardizeTableName t dbPrefix schemaName useBrackets) }) })

/-- `merge.go` `updateRelations`: standardize both endpoint names of each
relation, inferring each side's database from its own name and falling back to
the current prefix. -/
def updateRelations (relations : List Relation) (dbPrefix schemaName : List Char)
    (useBrackets : Bool) : List Relation :=
  relations.map (fun relation =>
    let tableDB :=
      if (ParseQualifiedName relation.Table.Name).Database = [] then dbPrefix
      else (ParseQualifiedName relation.Table.Name).Database
    let parentDB :=
      if (ParseQualifiedName relation.ParentTable.Name).Database = [] then dbPrefix
      else (ParseQualifiedName relation.ParentTable.Name).Database
    { relation with
      Table := { Name := StandardizeTableName relation.Table.Name tableDB schemaName useBrackets }
      ParentTable :=
        { Name := StandardizeTableName relation.ParentTable.Name parentDB schemaName useBrackets } })

/-- `merge.go` `updateFunctions`. -/
def updateFunctions (functions : List Function) (dbPrefix schemaName : List Char)
    (useBrackets : Bool) : List Function :=
  functions.map (fun f =>
    { f with Name := StandardizeTableName f.Name dbPrefix schemaName useBrackets })

/-- The cross-database test of `merge.go` lines 102–108: both endpoints'
parsed database components are non-empty and differ. -/
def crossDBPred (rel : Relation) : Bool :=
  decide ((ParseQualifiedName rel.Table.Name).Database ≠ [] ∧
    (ParseQualifiedName rel.ParentTable.Name).Database ≠ [] ∧
    (ParseQualifiedName rel.Table.Name).Database ≠
      (ParseQualifiedName rel.ParentTable.Name).Database)

/-- The database prefix chosen for a document (lines 70–76): the explicit
mapping entry when present, else the name derived from the file path. -/
def dbPrefixFor (config : MergeConfig) (path : List Char) : List Char :=
  match lookupMapping config.DatabaseMapping path with
  | some mappedName => mappedName
  | none => ExtractDatabaseName path

/-- The default schema name chosen for a document (lines 80–84): the driver's
declared current schema (quote-trimmed) when present and non-empty, else the
configured default. -/
def schemaNameFor (config : MergeConfig) (schema : Schema) : List Char :=
  match schema.Driver with
  | some drv =>
    match drv.Meta with
    | some meta =>
      if meta.CurrentSchema ≠ [] then trimQuotes meta.CurrentSchema
      else config.DefaultSchema
    | none => config.DefaultSchema
  | none => config.DefaultSchema

/-- The per-document body of the `MergeSchemas` loop (lines 63–129). -/
def processFile (config : MergeConfig) (acc : Schema × MergeStats)
    (file : List Char × Schema) : Schema × MergeStats :=
  let merged := acc.1
  let stats := acc.2
  let schema := file.2
  let dbPrefix := dbPrefixFor config file.1
  let schemaName := schemaNameFor config schema
  let updatedTables := updateTableNames schema.Tables dbPrefix schemaName config.UseBrackets
  let updatedRelations :=
    updateRelations schema.Relations dbPrefix schemaName config.UseBrackets
  let virtualRels :=
    if config.ExtractViewRelations then
      ExtractRelationsFromDefinitions updatedTables dbPrefix schemaName config.UseBrackets
    else []
  let updatedFunctions :=
    updateFunctions schema.Functions dbPrefix schemaName config.UseBrackets
  ({ merged with
     Tables := merged.Tables ++ updatedTables
     Relations := merged.Relations ++ updatedRelations ++ virtualRels
     Functions := merged.Functions ++ updatedFunctions
     Driver := match merged.Driver with | none => schema.Driver | some d => some d },
   { stats with
     Databases := stats.Databases ++ [dbPrefix]
     TotalTables := stats.TotalTables + updatedTables.length
     TotalViews := stats.TotalViews + updatedTables.countP
       (fun t => decide (t.«Type» = S "VIEW" ∨ t.«Type» = S "MATERIALIZED VIEW"))
     CrossDBRelations := stats.CrossDBRelations + updatedRelations.countP crossDBPred
     TotalRelations := stats.TotalRelations + updatedRelations.length
     ExtractedRelations := stats.ExtractedRelations + virtualRels.length
     TotalFunctions := stats.TotalFunctions + updatedFunctions.length })

/-- The all-zero statistics record the merge starts from. -/
def emptyStats : MergeStats :=
  { TotalTables := 0, TotalViews := 0, TotalRelations := 0, TotalFunctions := 0,
    Databases := [], CrossDBRelations := 0, ExtractedRelations := 0, DeduplicatedCount := 0 }

/-- The `config == nil` default of `merge.go` lines 40–49 (the formatted
description string is irrelevant to every verified property and is modelled by
its constant prefix). -/
def defaultMergeConfig : MergeConfig :=
  { Name := S "Combined Schema", Description := S "Combined schema from N databases",
    DefaultSchema := S "dbo", UseBrackets := true, ExtractViewRelations := true,
    DatabaseMapping := [] }

/-- The `config == nil` check of `merge.go` lines 40–49. -/
def resolveConfig (config : Option MergeConfig) : MergeConfig :=
  match config with
  | some c => c
  | none => defaultMergeConfig

/-- `merge.go` `MergeSchemas`, up to and including deduplication (the external
`Repair` relinking step, which follows, is outside these sources): fold the
per-document processing over the inputs, then deduplicate the accumulated
relations and record the removal count. -/
def MergeSchemasCore (files : List (List Char × Schema)) (config : Option MergeConfig) :
    Schema × MergeStats :=
  let cfg := resolveConfig config
  let init : Schema × MergeStats :=
    ({ Name := cfg.Name, Desc := cfg.Description, Tables := [], Relations := [],
       Functions := [], Driver := none }, emptyStats)
  let acc := files.foldl (processFile cfg) init
  let originalRelationCount := acc.1.Relations.length
  let dedupedRelations := DeduplicateRelations acc.1.Relations
  ({ acc.1 with Relations := dedupedRelations },
   { acc.2 with DeduplicatedCount := originalRelationCount - dedupedRelations.length })

/-! ### Concrete sample inputs (used by the witness instances) -/

/-- The SQL text of the specification's worked example. -/
def sampleSQL : List Char :=
  S "SELECT * FROM Orders o INNER JOIN Customers c ON o.customer_id = c.id"

/-- A view whose definition is the worked example. -/
def sampleView : Table :=
  { Name := S "CustomerOrders", «Type» := S "VIEW", Def := sampleSQL,
    ReferencedTables := [], Constraints := [], Indexes := [] }

/-- The virtual relations derived from the sample view. -/
def sampleRelations : List Relation :=
  ExtractRelationsFromDefinitions [sampleView] (S "DV") (S "dbo") true

/-- An all-zero relation (the `getD` fallback for sample lookups). -/
def zeroRelation : Relation :=
  { Table := ⟨[]⟩, Columns := [], Cardinality := UnknownCardinality, ParentTable := ⟨[]⟩,
    ParentColumns := [], ParentCardinality := UnknownCardinality, Def := [], Virtual := false }

/-- The first (and only) virtual relation derived from the sample view. -/
def sampleRelation : Relation := sampleRelations.getD 0 zeroRelation

/-- A non-virtual relation Orders→Customers (the dedup sample of the Go tests). -/
def dedupRelA : Relation :=
  { Table := ⟨S "[DV].[dbo].[Orders]"⟩, Columns := [⟨S "customer_id"⟩],
    Cardinality := UnknownCardinality, ParentTable := ⟨S "[DV].[dbo].[Customers]"⟩,
    ParentColumns := [⟨S "id"⟩], ParentCardinality := UnknownCardinality,
    Def := [], Virtual := false }

/-- The virtual duplicate of `dedupRelA`. -/
def dedupRelAv : Relation := { dedupRelA with Virtual := true }

/-- An unrelated virtual relation Orders→Products. -/
def dedupRelB : Relation :=
  { Table := ⟨S "[DV].[dbo].[Orders]"⟩, Columns := [⟨S "product_id"⟩],
    Cardinality := UnknownCardinality, ParentTable := ⟨S "[DV].[dbo].[Products]"⟩,
    ParentColumns := [⟨S "id"⟩], ParentCardinality := UnknownCardinality,
    Def := [], Virtual := true }

/-- A dedup input in which the virtual candidate arrives first. -/
def sampleDedupInput : List Relation := [dedupRelAv, dedupRelA, dedupRelB]

/-- The identity key shared by `dedupRelA` and `dedupRelAv`. -/
def sampleDedupKey : RelKey := relKeyOf dedupRelA

/-- A single-table document whose one relation points into the `DM` database. -/
def mergeDocDV : Schema :=
  { Name := S "dv", Desc := [],
    Tables := [{ Name := S "TA", «Type» := S "BASE TABLE", Def := [],
                 ReferencedTables := [], Constraints := [], Indexes := [] }],
    Relations := [{ Table := ⟨S "TA"⟩, Columns := [⟨S "x"⟩],
                    Cardinality := UnknownCardinality, ParentTable := ⟨S "DM.dbo.TB"⟩,
                    ParentColumns := [⟨S "y"⟩], ParentCardinality := UnknownCardinality,
                    Def := [], Virtual := false }],
    Functions := [], Driver := none }

/-- A single-table document owning the table referenced by `mergeDocDV`. -/
def mergeDocDM : Schema :=
  { Name := S "dm", Desc := [],
    Tables := [{ Name := S "TB", «Type» := S "BASE TABLE", Def := [],
                 ReferencedTables := [], Constraints := [], Indexes := [] }],
    Relations := [], Functions := [], Driver := none }

/-- The all-zero join fact (the `getD` fallback for sample lookups). -/
def zeroJoin : JoinRelation :=
  { FromTable := [], FromColumns := [], ToTable := [], ToColumns := [],
    JoinType := [], OnCondition := [] }

/-- The first (and only) join fact extracted from the sample SQL text. -/
def sampleJoin : JoinRelation :=
  (ExtractJoinsFromSQL sampleSQL (S "Orders") (S "DV") (S "dbo") true).getD 0 zeroJoin

/-! ### Claim theorems -/

/-- C3: for the SQL text `SELECT * FROM Orders o INNER JOIN Customers c ON
o.customer_id = c.id`, with source table `Orders`, default database `DV`,
default schema `dbo` and brackets enabled, `ExtractJoinsFromSQL` returns
exactly one `JoinRelation`, with `JoinType = "INNER"`,
`ToTable = "[DV].[dbo].[Customers]"`, `FromColumns = ["customer_id"]` and
`ToColumns = ["id"]`. -/
theorem extractJoins_inner_join_sample :
    ExtractJoinsFromSQL sampleSQL (S "Orders") (S "DV") (S "dbo") true =
      [{ FromTable := S "Orders", FromColumns := [S "customer_id"],
         ToTable := S "[DV].[dbo].[Customers]", ToColumns := [S "id"],
         JoinType := S "INNER", OnCondition := S "o.customer_id = c.id" }] := by
  decide

/-- C5: `ExtractJoinsFromSQL` is a total function into lists of facts (it has
no error outcome by construction); empty SQL text yields zero facts, and so
does any SQL text in which the join pattern finds no match. -/
theorem extractJoins_total_no_error (sourceTable defaultDB defaultSchema : List Char)
    (useBrackets : Bool) :
    ExtractJoinsFromSQL [] sourceTable defaultDB defaultSchema useBrackets = [] ∧
    ∀ sqlDef : List Char,
      findAllJoin (sqlDef.length + 1) sqlDef = [] →
      ExtractJoinsFromSQL sqlDef sourceTable defaultDB defaultSchema useBrackets = [] := by
  refine ⟨by simp [ExtractJoinsFromSQL], fun sqlDef h => ?_⟩
  by_cases he : sqlDef = []
  · simp [ExtractJoinsFromSQL, he]
  · simp [ExtractJoinsFromSQL, he, h]

/-- Witness for C5: a definition with no join clause produces zero facts. -/
theorem extractJoins_total_no_error_witness :
    findAllJoin ((S "SELECT * FROM T WHERE a = b").length + 1)
      (S "SELECT * FROM T WHERE a = b") = [] ∧
    ExtractJoinsFromSQL (S "SELECT * FROM T WHERE a = b") (S "T") (S "DV") (S "dbo") true = [] :=
  ⟨by decide,
   (extractJoins_total_no_error (S "T") (S "DV") (S "dbo") true).2 _ (by decide)⟩

/-- Go `strings.Contains` agrees with Mathlib's sublist-infix relation. -/
theorem containsSub_iff (s sub : List Char) : containsSub s sub = true ↔ sub <:+: s := by
  induction s with
  | nil => simp [containsSub, List.isEmpty_iff, List.infix_nil]
  | cons c tail ih =>
    simp only [containsSub, Bool.or_eq_true, List.isPrefixOf_iff_prefix, ih,
      List.infix_cons_iff]

/-- C6: the join type assigned to a fact is chosen by case-insensitive
substring search over the whole matched clause text, with precedence
LEFT, then RIGHT, then FULL, then the INNER default; and every fact produced
by `ExtractJoinsFromSQL` draws its `JoinType` from the whole text of its
originating match (`match[0]`). -/
theorem joinType_substring_precedence :
    (∀ t : List Char,
      joinTypeOf t =
        (if (S "LEFT") <:+: t.map Char.toUpper then S "LEFT"
         else if (S "RIGHT") <:+: t.map Char.toUpper then S "RIGHT"
         else if (S "FULL") <:+: t.map Char.toUpper then S "FULL"
         else S "INNER")) ∧
    (∀ (sqlDef sourceTable defaultDB defaultSchema : List Char) (useBrackets : Bool)
       (j : JoinRelation),
      j ∈ ExtractJoinsFromSQL sqlDef sourceTable defaultDB defaultSchema useBrackets →
      ∃ m ∈ findAllJoin (sqlDef.length + 1) sqlDef, j.JoinType = joinTypeOf m.whole) := by
  constructor
  · intro t
    simp only [joinTypeOf]
    by_cases hL : (S "LEFT") <:+: t.map Char.toUpper
    · rw [if_pos ((containsSub_iff _ _).mpr hL), if_pos hL]
    · rw [if_neg (fun hb => hL ((containsSub_iff _ _).mp hb)), if_neg hL]
      by_cases hR : (S "RIGHT") <:+: t.map Char.toUpper
      · rw [if_pos ((containsSub_iff _ _).mpr hR), if_pos hR]
      · rw [if_neg (fun hb => hR ((containsSub_iff _ _).mp hb)), if_neg hR]
        by_cases hF : (S "FULL") <:+: t.map Char.toUpper
        · rw [if_pos ((containsSub_iff _ _).mpr hF), if_pos hF]
        · rw [if_neg (fun hb => hF ((containsSub_iff _ _).mp hb)), if_neg hF]
  · intro sqlDef sourceTable defaultDB defaultSchema useBrackets j hj
    by_cases he : sqlDef = []
    · simp [ExtractJoinsFromSQL, he] at hj
    · simp only [ExtractJoinsFromSQL, if_neg he, List.mem_flatMap, List.mem_map] at hj
      obtain ⟨m, hm, cm, hcm, rfl⟩ := hj
      exact ⟨m, hm, rfl⟩

/-- Witness for C6: the single fact of the sample extraction takes its join
type from the whole text of its originating match. -/
theorem joinType_substring_precedence_witness :
    sampleJoin ∈ ExtractJoinsFromSQL sampleSQL (S "Orders") (S "DV") (S "dbo") true ∧
    ∃ m ∈ findAllJoin (sampleSQL.length + 1) sampleSQL,
      sampleJoin.JoinType = joinTypeOf m.whole :=
  ⟨by decide,
   joinType_substring_precedence.2 sampleSQL (S "Orders") (S "DV") (S "dbo") true
     sampleJoin (by decide)⟩

/-- Unfolding membership in the relation deriver's output: every produced
relation is `relationFromJoin` of a join fact extracted from some input
table's definition. -/
theorem mem_extractRelations {tables : List Table} {defaultDB defaultSchema : List Char}
    {useBrackets : Bool} {rel : Relation}
    (h : rel ∈ ExtractRelationsFromDefinitions tables defaultDB defaultSchema useBrackets) :
    ∃ table ∈ tables,
      ∃ j ∈ ExtractJoinsFromSQL table.Def table.Name defaultDB defaultSchema useBrackets,
        rel = relationFromJoin j := by
  simp only [ExtractRelationsFromDefinitions, List.mem_flatMap] at h
  obtain ⟨table, ht, hrel⟩ := h
  refine ⟨table, ht, ?_⟩
  by_cases h1 : table.«Type» = S "VIEW" ∨ table.«Type» = S "MATERIALIZED VIEW" ∨
      table.«Type» = S "BASE TABLE"
  · rw [if_pos h1] at hrel
    by_cases h2 : table.Def = []
    · rw [if_pos h2] at hrel
      simp at hrel
    · rw [if_neg h2] at hrel
      simp only [List.mem_map] at hrel
      obtain ⟨j, hj, rfl⟩ := hrel
      exact ⟨j, hj, rfl⟩
  · rw [if_neg h1] at hrel
    simp at hrel

/-- Unfolding membership in the join extractor's output: every fact carries
exactly one child column and one parent column. -/
theorem mem_extractJoins {sqlDef sourceTable defaultDB defaultSchema : List Char}
    {useBrackets : Bool} {j : JoinRelation}
    (h : j ∈ ExtractJoinsFromSQL sqlDef sourceTable defaultDB defaultSchema useBrackets) :
    j.FromColumns.length = 1 ∧ j.ToColumns.length = 1 := by
  by_cases he : sqlDef = []
  · simp [ExtractJoinsFromSQL, he] at h
  · simp only [ExtractJoinsFromSQL, if_neg he, List.mem_flatMap, List.mem_map] at h
    obtain ⟨m, _, cm, _, rfl⟩ := h
    exact ⟨rfl, rfl⟩

/-- C4: every relation produced by the relation deriver comes from a join
fact, and its cardinality pair is a function of that fact's join type alone:
LEFT ↦ (ZeroOrOne, ZeroOrMore), RIGHT ↦ (ZeroOrMore, ZeroOrOne), anything
else (INNER, FULL, …) ↦ (ExactlyOne, ZeroOrMore). -/
theorem relationDeriver_cardinality (tables : List Table)
    (defaultDB defaultSchema : List Char) (useBrackets : Bool) (rel : Relation)
    (h : rel ∈ ExtractRelationsFromDefinitions tables defaultDB defaultSchema useBrackets) :
    ∃ j : JoinRelation, rel = relationFromJoin j ∧
      (rel.Cardinality, rel.ParentCardinality) =
        (if j.JoinType = S "LEFT" then (ZeroOrOne, ZeroOrMore)
         else if j.JoinType = S "RIGHT" then (ZeroOrMore, ZeroOrOne)
         else (ExactlyOne, ZeroOrMore)) := by
  obtain ⟨table, _, j, _, rfl⟩ := mem_extractRelations h
  refine ⟨j, rfl, ?_⟩
  by_cases h1 : j.JoinType = S "LEFT"
  · simp [relationFromJoin, h1]
  · by_cases h2 : j.JoinType = S "RIGHT"
    · simp [relationFromJoin, h1, h2]
    · simp [relationFromJoin, h1, h2]

/-- Witness for C4: the sample derivation (an INNER join) lands in the default
bucket (ExactlyOne, ZeroOrMore). -/
theorem relationDeriver_cardinality_witness :
    sampleRelation ∈ ExtractRelationsFromDefinitions [sampleView] (S "DV") (S "dbo") true ∧
    ∃ j : JoinRelation, sampleRelation = relationFromJoin j ∧
      (sampleRelation.Cardinality, sampleRelation.ParentCardinality) =
        (if j.JoinType = S "LEFT" then (ZeroOrOne, ZeroOrMore)
         else if j.JoinType = S "RIGHT" then (ZeroOrMore, ZeroOrOne)
         else (ExactlyOne, ZeroOrMore)) :=
  ⟨by decide,
   relationDeriver_cardinality [sampleView] (S "DV") (S "dbo") true sampleRelation (by decide)⟩

/-- C8: every relation produced by the relation deriver is virtual and carries
exactly one child column and exactly one parent column. -/
theorem relationDeriver_virtual_single_column (tables : List Table)
    (defaultDB defaultSchema : List Char) (useBrackets : Bool) (rel : Relation)
    (h : rel ∈ ExtractRelationsFromDefinitions tables defaultDB defaultSchema useBrackets) :
    rel.Virtual = true ∧ rel.Columns.length = 1 ∧ rel.ParentColumns.length = 1 := by
  obtain ⟨table, _, j, hj, rfl⟩ := mem_extractRelations h
  have hc := mem_extractJoins hj
  refine ⟨rfl, ?_, ?_⟩
  · simp [relationFromJoin, hc.1]
  · simp [relationFromJoin, hc.2]

/-- Witness for C8: the sample derivation is virtual with singleton column
lists. -/
theorem relationDeriver_virtual_single_column_witness :
    sampleRelation ∈ ExtractRelationsFromDefinitions [sampleView] (S "DV") (S "dbo") true ∧
    sampleRelation.Virtual = true ∧ sampleRelation.Columns.length = 1 ∧
    sampleRelation.ParentColumns.length = 1 :=
  ⟨by decide,
   relationDeriver_virtual_single_column [sampleView] (S "DV") (S "dbo") true
     sampleRelation (by decide)⟩

/-- Bracket removal is idempotent. -/
theorem NB_idem (s : List Char) :
    NormalizeBrackets (NormalizeBrackets s) = NormalizeBrackets s := by
  simp [NormalizeBrackets, List.filter_filter]

/-- Dropping all but the last three elements, phrased through `reverse`. -/
theorem drop_len_sub_three {α : Type} (l : List α) (x y z : α) (r : List α)
    (h : l.reverse = x :: y :: z :: r) : l.drop (l.length - 3) = [z, y, x] := by
  have hl : l = r.reverse ++ [z, y, x] := by
    have h2 := congrArg List.reverse h
    simpa using h2
  rw [hl]
  have hlen : (r.reverse ++ [z, y, x]).length - 3 = r.reverse.length := by simp
  rw [hlen, List.drop_left]

/-- C2: the parsing policy of `ParseQualifiedName` — brackets are removed
first, the remainder splits on `.`; one part sets only Table, two parts set
Schema and Table, three parts set all components, and more than three parts
keep exactly the last three (earlier segments are discarded); consequently a
bracketed input parses exactly like its unbracketed form. -/
theorem parseQualifiedName_policy (s : List Char) :
    (ParseQualifiedName s =
      match splitOnDot (NormalizeBrackets s) with
      | [t] => ⟨[], [], t⟩
      | [sc, t] => ⟨[], sc, t⟩
      | [d, sc, t] => ⟨d, sc, t⟩
      | parts =>
        match parts.reverse with
        | t :: sc :: d :: _ => ⟨d, sc, t⟩
        | _ => ⟨[], [], []⟩) ∧
    ParseQualifiedName (NormalizeBrackets s) = ParseQualifiedName s := by
  refine ⟨?_, by simp only [ParseQualifiedName]; rw [NB_idem]⟩
  rcases hp : splitOnDot (NormalizeBrackets s) with _ | ⟨a, _ | ⟨b, _ | ⟨c, _ | ⟨d, rest⟩⟩⟩⟩
  · simp [ParseQualifiedName, hp]
  · simp [ParseQualifiedName, hp]
  · simp [ParseQualifiedName, hp]
  · simp [ParseQualifiedName, hp]
  · have hlen : (a :: b :: c :: d :: rest).reverse.length = rest.length + 4 := by simp
    rcases hr : (a :: b :: c :: d :: rest).reverse with _ | ⟨x, _ | ⟨y, _ | ⟨z, r⟩⟩⟩
    · rw [hr] at hlen; simp at hlen
    · rw [hr] at hlen; simp at hlen
    · rw [hr] at hlen; simp at hlen
    · have hdrop := drop_len_sub_three (a :: b :: c :: d :: rest) x y z r hr
      simp only [ParseQualifiedName, hp, hr]
      rw [if_pos (by simp), hdrop]

/-- Appending a fresh key does not change lookups of other keys. -/
theorem lookupRel_append_ne (k k1 : RelKey) (r : Relation)
    (seen : List (RelKey × Relation)) (h : k1 ≠ k) :
    lookupRel k (seen ++ [(k1, r)]) = lookupRel k seen := by
  induction seen with
  | nil => simp [lookupRel, h]
  | cons p rest ih =>
    obtain ⟨k2, r2⟩ := p
    by_cases h2 : k2 = k <;> simp [lookupRel, h2, ih]

/-- Appending a key that was absent makes it found. -/
theorem lookupRel_append_eq (k : RelKey) (r : Relation)
    (seen : List (RelKey × Relation)) (h : lookupRel k seen = none) :
    lookupRel k (seen ++ [(k, r)]) = some r := by
  induction seen with
  | nil => simp [lookupRel]
  | cons p rest ih =>
    obtain ⟨k2, r2⟩ := p
    by_cases h2 : k2 = k
    · simp [lookupRel, h2] at h
    · simp [lookupRel, h2] at h ⊢
      exact ih h

/-- Replacing a present key's value changes its lookup to the new value. -/
theorem lookupRel_replace_eq (k : RelKey) (nr : Relation)
    (seen : List (RelKey × Relation)) (e : Relation) (h : lookupRel k seen = some e) :
    lookupRel k (replaceRel k nr seen) = some nr := by
  induction seen with
  | nil => simp [lookupRel] at h
  | cons p rest ih =>
    obtain ⟨k2, r2⟩ := p
    by_cases h2 : k2 = k
    · simp [lookupRel, replaceRel, h2]
    · simp [lookupRel, replaceRel, h2] at h ⊢
      exact ih h

/-- Replacing one key's value does not change lookups of other keys. -/
theorem lookupRel_replace_ne (k k1 : RelKey) (nr : Relation)
    (seen : List (RelKey × Relation)) (h : k1 ≠ k) :
    lookupRel k (replaceRel k1 nr seen) = lookupRel k seen := by
  induction seen with
  | nil => simp [replaceRel, lookupRel]
  | cons p rest ih =>
    obtain ⟨k2, r2⟩ := p
    by_cases h2 : k2 = k1
    · subst h2
      simp [lookupRel, replaceRel, h]
    · by_cases h3 : k2 = k
      · subst h3
        simp [lookupRel, replaceRel, h2, Ne.symm h]
      · simp [lookupRel, replaceRel, h2, h3, ih]

/-- A key looks up to `none` exactly when it is absent. -/
theorem lookupRel_none_iff (k : RelKey) (l : List (RelKey × Relation)) :
    lookupRel k l = none ↔ k ∉ l.map Prod.fst := by
  induction l with
  | nil => simp [lookupRel]
  | cons p rest ih =>
    obtain ⟨k2, r2⟩ := p
    by_cases h2 : k2 = k
    · subst h2
      simp [lookupRel]
    · simp [lookupRel, h2, ih, Ne.symm h2]

/-- The survivor stored for key `k` after folding `rels` into `seen`:
with no prior entry it is the specification's survivor; with a stored entry
`e` it is `e` itself unless `e` is virtual and a non-virtual candidate with
the same key arrives, which replaces it. -/
theorem dedupGo_lookup (rels : List Relation) (seen : List (RelKey × Relation)) (k : RelKey) :
    lookupRel k (dedupGo rels seen) =
      match lookupRel k seen with
      | none => survivorSpec k rels
      | some e => some (if e.Virtual then (rels.find? (nvPred k)).getD e else e) := by
  induction rels generalizing seen with
  | nil =>
    simp only [dedupGo]
    cases h : lookupRel k seen with
    | none => simp [survivorSpec, List.find?]
    | some e => cases hv : e.Virtual <;> simp [List.find?, hv]
  | cons r rest ih =>
    by_cases hk : relKeyOf r = k
    · subst hk
      cases hlk : lookupRel (relKeyOf r) seen with
      | none =>
        simp only [dedupGo, hlk]
        rw [ih, lookupRel_append_eq _ _ _ hlk]
        cases hv : r.Virtual with
        | false =>
          have hp : nvPred (relKeyOf r) r = true := by simp [nvPred, hv]
          simp only [survivorSpec, List.find?_cons_of_pos rest hp]
          simp [hv]
        | true =>
          have hp : ¬nvPred (relKeyOf r) r = true := by simp [nvPred, hv]
          have hq : keyPred (relKeyOf r) r = true := by simp [keyPred]
          simp only [survivorSpec, List.find?_cons_of_neg rest hp,
            List.find?_cons_of_pos rest hq]
          cases hf : rest.find? (nvPred (relKeyOf r)) <;> simp [hf, hv]
      | some e0 =>
        simp only [dedupGo, hlk]
        by_cases hc : (!r.Virtual && e0.Virtual) = true
        · rw [if_pos hc]
          simp only [Bool.and_eq_true, Bool.not_eq_true'] at hc
          rw [ih, lookupRel_replace_eq _ _ _ _ hlk]
          have hp : nvPred (relKeyOf r) r = true := by simp [nvPred, hc.1]
          rw [List.find?_cons_of_pos rest hp]
          simp [hc.1, hc.2]
        · rw [if_neg hc]
          rw [ih, hlk]
          cases hev : e0.Virtual with
          | false => simp [hev]
          | true =>
            have hrv : r.Virtual = true := by
              cases hx : r.Virtual
              · exact absurd (by simp [hx, hev]) hc
              · rfl
            have hp : ¬nvPred (relKeyOf r) r = true := by simp [nvPred, hrv]
            rw [List.find?_cons_of_neg rest hp]
            simp [hev]
    · have hnv : ¬nvPred k r = true := by simp [nvPred, hk]
      have hkp : ¬keyPred k r = true := by simp [keyPred, hk]
      cases hlk : lookupRel (relKeyOf r) seen with
      | none =>
        simp only [dedupGo, hlk]
        rw [ih, lookupRel_append_ne _ _ _ _ hk]
        simp only [survivorSpec, List.find?_cons_of_neg rest hnv,
          List.find?_cons_of_neg rest hkp]
      | some e0 =>
        simp only [dedupGo, hlk]
        by_cases hc : (!r.Virtual && e0.Virtual) = true
        · rw [if_pos hc]
          rw [ih, lookupRel_replace_ne _ _ _ _ hk]
          simp only [survivorSpec, List.find?_cons_of_neg rest hnv,
            List.find?_cons_of_neg rest hkp]
        · rw [if_neg hc]
          rw [ih]
          simp only [survivorSpec, List.find?_cons_of_neg rest hnv,
            List.find?_cons_of_neg rest hkp]

/-- Replacement preserves the stored keys. -/
theorem replaceRel_map_fst (k : RelKey) (nr : Relation) (l : List (RelKey × Relation)) :
    (replaceRel k nr l).map Prod.fst = l.map Prod.fst := by
  induction l with
  | nil => simp [replaceRel]
  | cons p rest ih =>
    obtain ⟨k2, r2⟩ := p
    by_cases h2 : k2 = k <;> simp [replaceRel, h2, ih]

/-- Replacement with a matching-key value keeps every stored pair consistent. -/
theorem replaceRel_pairs (k : RelKey) (nr : Relation) (l : List (RelKey × Relation))
    (h : ∀ p ∈ l, relKeyOf p.2 = p.1) (hnr : relKeyOf nr = k) :
    ∀ p ∈ replaceRel k nr l, relKeyOf p.2 = p.1 := by
  induction l with
  | nil => simp [replaceRel]
  | cons q rest ih =>
    obtain ⟨k2, r2⟩ := q
    by_cases h2 : k2 = k
    · subst h2
      simp only [replaceRel, if_pos rfl]
      intro p hp
      rcases List.mem_cons.mp hp with hp | hp
      · subst hp; exact hnr
      · exact h p (List.mem_cons_of_mem _ hp)
    · simp only [replaceRel, if_neg h2]
      intro p hp
      rcases List.mem_cons.mp hp with hp | hp
      · subst hp; exact h (k2, r2) (List.mem_cons_self _ _)
      · exact ih (fun q hq => h q (List.mem_cons_of_mem _ hq)) p hp

/-- The dedup fold keeps the association list consistent: every stored pair's
key is its relation's key, and the stored keys are distinct. -/
theorem dedupGo_inv (rels : List Relation) (seen : List (RelKey × Relation))
    (h1 : ∀ p ∈ seen, relKeyOf p.2 = p.1) (h2 : (seen.map Prod.fst).Nodup) :
    (∀ p ∈ dedupGo rels seen, relKeyOf p.2 = p.1) ∧
      ((dedupGo rels seen).map Prod.fst).Nodup := by
  induction rels generalizing seen with
  | nil => exact ⟨h1, h2⟩
  | cons r rest ih =>
    cases hlk : lookupRel (relKeyOf r) seen with
    | none =>
      simp only [dedupGo, hlk]
      apply ih
      · intro p hp
        rcases List.mem_append.mp hp with hp | hp
        · exact h1 p hp
        · simp at hp
          subst hp
          rfl
      · have hnm : relKeyOf r ∉ seen.map Prod.fst := (lookupRel_none_iff _ _).mp hlk
        simp only [List.map_append, List.map_cons, List.map_nil]
        rw [List.nodup_append]
        exact ⟨h2, List.nodup_singleton _, by simpa using fun hmem => hnm hmem⟩
    | some e0 =>
      simp only [dedupGo, hlk]
      by_cases hc : (!r.Virtual && e0.Virtual) = true
      · rw [if_pos hc]
        apply ih
        · exact replaceRel_pairs _ _ _ h1 rfl
        · rw [replaceRel_map_fst]
          exact h2
      · rw [if_neg hc]
        exact ih _ h1 h2

/-- On a consistent association list, filtering the stored relations by key
yields exactly the lookup result. -/
theorem assoc_filter_eq (l : List (RelKey × Relation)) (k : RelKey)
    (h1 : ∀ p ∈ l, relKeyOf p.2 = p.1) (h2 : (l.map Prod.fst).Nodup) :
    (l.map Prod.snd).filter (keyPred k) = (lookupRel k l).toList := by
  induction l with
  | nil => simp [lookupRel]
  | cons p rest ih =>
    obtain ⟨k1, r1⟩ := p
    have hk1 : relKeyOf r1 = k1 := h1 (k1, r1) (List.mem_cons_self _ _)
    have h1r : ∀ q ∈ rest, relKeyOf q.2 = q.1 := fun q hq => h1 q (List.mem_cons_of_mem _ hq)
    have h2r : (rest.map Prod.fst).Nodup := (List.nodup_cons.mp (by simpa using h2)).2
    by_cases hk : k1 = k
    · subst hk
      have hnm : k1 ∉ rest.map Prod.fst := (List.nodup_cons.mp (by simpa using h2)).1
      have hlr : lookupRel k1 rest = none := (lookupRel_none_iff _ _).mpr hnm
      have hfil : (rest.map Prod.snd).filter (keyPred k1) = [] := by
        rw [ih h1r h2r, hlr]
        rfl
      simp only [List.map_cons, List.filter_cons, lookupRel, if_pos rfl]
      rw [if_pos (by simp [keyPred, hk1])]
      rw [hfil]
      rfl
    · simp only [List.map_cons, List.filter_cons, lookupRel]
      rw [if_neg (by simp [keyPred, hk1, hk]), if_neg hk]
      exact ih h1r h2r

/-- C1: `DeduplicateRelations` keeps exactly one relation per identity key
that occurs in the input: filtering the output by any key `k` yields the
specification survivor — the first non-virtual candidate with key `k` if one
exists (so a non-virtual candidate can never be displaced by a virtual one,
whatever the input order), otherwise the first candidate with key `k` — and
in particular, when the key occurs at all, exactly one relation with that key
survives. -/
theorem deduplicateRelations_key_survivor (rels : List Relation) (k : RelKey) :
    ((DeduplicateRelations rels).filter (keyPred k) = (survivorSpec k rels).toList) ∧
    ((∃ r ∈ rels, keyPred k r = true) →
      ((DeduplicateRelations rels).filter (keyPred k)).length = 1) := by
  have hinv := dedupGo_inv rels [] (by simp) (by simp)
  have hfil := assoc_filter_eq (dedupGo rels []) k hinv.1 hinv.2
  have hlk := dedupGo_lookup rels [] k
  have hmain : (DeduplicateRelations rels).filter (keyPred k) = (survivorSpec k rels).toList := by
    rw [DeduplicateRelations, hfil, hlk]
    rfl
  refine ⟨hmain, fun hex => ?_⟩
  rw [hmain]
  obtain ⟨r, hr, hkr⟩ := hex
  have : (survivorSpec k rels).isSome := by
    rw [survivorSpec]
    cases hf : rels.find? (nvPred k) with
    | some x => rfl
    | none =>
      cases hf2 : rels.find? (keyPred k) with
      | some x => rfl
      | none =>
        have := List.find?_eq_none.mp hf2 r hr
        simp [hkr] at this
  cases hs : survivorSpec k rels with
  | none => rw [hs] at this; simp at this
  | some x => simp

/-- Witness for C1: in a concrete input where the virtual duplicate arrives
first, exactly one relation with the shared key survives. -/
theorem deduplicateRelations_key_survivor_witness :
    (∃ r ∈ sampleDedupInput, keyPred sampleDedupKey r = true) ∧
    ((DeduplicateRelations sampleDedupInput).filter (keyPred sampleDedupKey)).length = 1 :=
  ⟨by decide,
   (deduplicateRelations_key_survivor sampleDedupInput sampleDedupKey).2 (by decide)⟩

/-- Splitting distributes over the first separator when the leading segment is
dot-free. -/
theorem splitOnDot_append_dot (a r : List Char) (h : '.' ∉ a) :
    splitOnDot (a ++ '.' :: r) = a :: splitOnDot r := by
  induction a with
  | nil => simp [splitOnDot]
  | cons c cs ih =>
    have hc : ¬c = '.' := fun hc => h (by simp [hc])
    have hcs : '.' ∉ cs := fun hm => h (List.mem_cons_of_mem _ hm)
    simp only [List.cons_append, splitOnDot, List.append_eq, ih hcs, if_neg hc]

/-- A dot-free string splits into itself. -/
theorem splitOnDot_no_dot (a : List Char) (h : '.' ∉ a) : splitOnDot a = [a] := by
  induction a with
  | nil => rfl
  | cons c cs ih =>
    have hc : ¬c = '.' := fun hc => h (by simp [hc])
    have hcs : '.' ∉ cs := fun hm => h (List.mem_cons_of_mem _ hm)
    simp only [splitOnDot, ih hcs, if_neg hc]

/-- Every piece produced by the splitter is dot-free. -/
theorem splitOnDot_pieces_no_dot (l : List Char) :
    ∀ piece ∈ splitOnDot l, '.' ∉ piece := by
  induction l with
  | nil =>
    intro piece hp
    simp [splitOnDot] at hp
    simp [hp]
  | cons c cs ih =>
    intro piece hp
    simp only [splitOnDot] at hp
    by_cases hc : c = '.'
    · rw [if_pos hc] at hp
      rcases List.mem_cons.mp hp with hp | hp
      · simp [hp]
      · exact ih piece hp
    · rw [if_neg hc] at hp
      cases hrest : splitOnDot cs with
      | nil =>
        rw [hrest] at hp
        simp at hp
        subst hp
        intro hd
        simp at hd
        exact hc hd.symm
      | cons p ps =>
        rw [hrest] at hp
        rcases List.mem_cons.mp hp with hp | hp
        · subst hp
          intro hdot
          rcases List.mem_cons.mp hdot with hd | hd
          · exact hc hd.symm
          · exact ih p (hrest ▸ List.mem_cons_self _ _) hd
        · exact ih piece (hrest ▸ List.mem_cons_of_mem _ hp)

/-- Every character of every piece produced by the splitter comes from the
input. -/
theorem splitOnDot_pieces_subset (l : List Char) :
    ∀ piece ∈ splitOnDot l, ∀ c ∈ piece, c ∈ l := by
  induction l with
  | nil =>
    intro piece hp
    simp [splitOnDot] at hp
    simp [hp]
  | cons c cs ih =>
    intro piece hp x hx
    simp only [splitOnDot] at hp
    by_cases hc : c = '.'
    · rw [if_pos hc] at hp
      rcases List.mem_cons.mp hp with hp | hp
      · simp [hp] at hx
      · exact List.mem_cons_of_mem _ (ih piece hp x hx)
    · rw [if_neg hc] at hp
      cases hrest : splitOnDot cs with
      | nil =>
        rw [hrest] at hp
        simp at hp
        subst hp
        simp at hx
        simp [hx]
      | cons p ps =>
        rw [hrest] at hp
        rcases List.mem_cons.mp hp with hp | hp
        · subst hp
          rcases List.mem_cons.mp hx with hx | hx
          · simp [hx]
          · exact List.mem_cons_of_mem _ (ih p (hrest ▸ List.mem_cons_self _ _) x hx)
        · exact List.mem_cons_of_mem _ (ih piece (hrest ▸ List.mem_cons_of_mem _ hp) x hx)

/-- Bracket removal leaves a bracket-free string unchanged. -/
theorem NB_eq_self (x : List Char) (h1 : '[' ∉ x) (h2 : ']' ∉ x) :
    NormalizeBrackets x = x := by
  rw [NormalizeBrackets, List.filter_eq_self]
  intro a ha
  simp only [Bool.not_eq_true', Bool.or_eq_false_iff, beq_eq_false_iff_ne]
  exact ⟨fun he => h1 (he ▸ ha), fun he => h2 (he ▸ ha)⟩

/-- The output of bracket removal contains no bracket characters. -/
theorem NB_no_brackets (x : List Char) :
    '[' ∉ NormalizeBrackets x ∧ ']' ∉ NormalizeBrackets x := by
  constructor <;> intro hm <;>
    simpa using (List.mem_filter.mp hm).2

/-- `dropWhile` is idempotent. -/
theorem dropWhile_idem (p : Char → Bool) (l : List Char) :
    (l.dropWhile p).dropWhile p = l.dropWhile p := by
  induction l with
  | nil => rfl
  | cons c cs ih =>
    by_cases hc : p c = true <;> simp [List.dropWhile_cons, hc, ih]

/-- `dropWhile` never lengthens a list. -/
theorem dropWhile_length_le (p : Char → Bool) (l : List Char) :
    (l.dropWhile p).length ≤ l.length := by
  induction l with
  | nil => simp
  | cons c cs ih =>
    by_cases hc : p c = true
    · simp only [List.dropWhile_cons, if_pos hc]
      exact Nat.le_succ_of_le ih
    · simp [List.dropWhile_cons, hc]

/-- A fixed point of `dropWhile` stays fixed on each of its prefixes. -/
theorem dropWhile_prefix_fixed (p : Char → Bool) (u w : List Char)
    (hu : u.dropWhile p = u) (hw : w <+: u) : w.dropWhile p = w := by
  cases w with
  | nil => rfl
  | cons c ws =>
    obtain ⟨tail, htail⟩ := hw
    have hcu : p c = false := by
      rw [← htail] at hu
      by_cases hc : p c = true
      · exfalso
        rw [List.cons_append, List.dropWhile_cons, if_pos hc] at hu
        have hlen := dropWhile_length_le p (ws ++ tail)
        rw [hu] at hlen
        simp at hlen
      · simpa using hc
    simp [List.dropWhile_cons, hcu]

/-- Trimming is idempotent. -/
theorem trimSpace_idem (s : List Char) : trimSpace (trimSpace s) = trimSpace s := by
  rw [trimSpace, trimSpace]
  set u := s.dropWhile isGoSpace with hu
  set v := u.reverse.dropWhile isGoSpace with hv
  have hfixu : u.dropWhile isGoSpace = u := by rw [hu]; exact dropWhile_idem _ _
  have hfixv : v.dropWhile isGoSpace = v := by rw [hv]; exact dropWhile_idem _ _
  have hpre : v.reverse <+: u := by
    rw [← List.reverse_reverse u]
    exact List.reverse_prefix.mpr (hv ▸ List.dropWhile_suffix _)
  have h1 : v.reverse.dropWhile isGoSpace = v.reverse :=
    dropWhile_prefix_fixed _ _ _ hfixu hpre
  rw [h1, List.reverse_reverse, hfixv]

/-- Every character of the trimmed string is a character of the original. -/
theorem trimSpace_subset (s : List Char) : ∀ c ∈ trimSpace s, c ∈ s := by
  intro c hc
  rw [trimSpace, List.mem_reverse] at hc
  have h1 : c ∈ (s.dropWhile isGoSpace).reverse :=
    (List.dropWhile_suffix isGoSpace).subset hc
  rw [List.mem_reverse] at h1
  exact (List.dropWhile_suffix isGoSpace).subset h1

/-- On input whose trimmed form is non-empty and which contains no `[`,
`BracketIdentifier` wraps the trimmed input in one bracket pair. -/
theorem bracketIdentifier_eq (x : List Char) (hne : trimSpace x ≠ [])
    (hbr : '[' ∉ x) : BracketIdentifier x = '[' :: trimSpace x ++ [']'] := by
  simp only [BracketIdentifier]
  rw [if_neg hne, if_neg ?_]
  intro h
  have : '[' ∈ trimSpace x := List.mem_of_mem_head? (by rw [h.1]; simp)
  exact hbr (trimSpace_subset x _ this)

/-- With three non-empty components, `BuildQualifiedName` emits all three,
dot-separated. -/
theorem build_three (t s d : List Char) (ub : Bool)
    (ht : t ≠ []) (hs : s ≠ []) (hd : d ≠ []) :
    BuildQualifiedName t s d ub =
      (if ub then BracketIdentifier d else d) ++
        '.' :: ((if ub then BracketIdentifier s else s) ++
          '.' :: (if ub then BracketIdentifier t else t)) := by
  rw [BuildQualifiedName, if_pos hd, if_pos hs, if_pos ht]
  simp [joinDot]

/-- Parsing a clean dot-separated triple recovers its components. -/
theorem parse_three (d s t : List Char)
    (hd : d ≠ [] ∧ '.' ∉ d ∧ '[' ∉ d ∧ ']' ∉ d)
    (hs : s ≠ [] ∧ '.' ∉ s ∧ '[' ∉ s ∧ ']' ∉ s)
    (ht : '.' ∉ t ∧ '[' ∉ t ∧ ']' ∉ t) :
    ParseQualifiedName (d ++ '.' :: (s ++ '.' :: t)) = ⟨d, s, t⟩ := by
  have hnb : NormalizeBrackets (d ++ '.' :: (s ++ '.' :: t)) = d ++ '.' :: (s ++ '.' :: t) := by
    apply NB_eq_self
    · intro hm
      simp only [List.mem_append, List.mem_cons] at hm
      rcases hm with hm | hm | hm | hm | hm
      · exact hd.2.2.1 hm
      · exact absurd hm (by decide)
      · exact hs.2.2.1 hm
      · exact absurd hm (by decide)
      · exact ht.2.1 hm
    · intro hm
      simp only [List.mem_append, List.mem_cons] at hm
      rcases hm with hm | hm | hm | hm | hm
      · exact hd.2.2.2 hm
      · exact absurd hm (by decide)
      · exact hs.2.2.2 hm
      · exact absurd hm (by decide)
      · exact ht.2.2 hm
  rw [ParseQualifiedName]
  simp only [hnb]
  rw [splitOnDot_append_dot d _ hd.2.1, splitOnDot_append_dot s t hs.2.1,
    splitOnDot_no_dot t ht.1]

/-- A trimmed-non-empty string is non-empty. -/
theorem ne_nil_of_trim_ne_nil (x : List Char) (h : trimSpace x ≠ []) : x ≠ [] := by
  intro he
  exact h (by rw [he]; rfl)

/-- Bracket removal distributes over append. -/
theorem NB_append (x y : List Char) :
    NormalizeBrackets (x ++ y) = NormalizeBrackets x ++ NormalizeBrackets y := by
  simp [NormalizeBrackets]

/-- Bracket removal drops a leading `[`. -/
theorem NB_lb (x : List Char) : NormalizeBrackets ('[' :: x) = NormalizeBrackets x := by
  simp [NormalizeBrackets, List.filter_cons]

/-- Bracket removal drops a leading `]`. -/
theorem NB_rb (x : List Char) : NormalizeBrackets (']' :: x) = NormalizeBrackets x := by
  simp [NormalizeBrackets, List.filter_cons]

/-- Bracket removal keeps a leading `.`. -/
theorem NB_dot (x : List Char) : NormalizeBrackets ('.' :: x) = '.' :: NormalizeBrackets x := by
  simp [NormalizeBrackets, List.filter_cons]

/-- Parsing the name built from clean components recovers them — trimmed in
bracket mode (where `BracketIdentifier` trims), verbatim otherwise. -/
theorem parse_build (d s t : List Char) (ub : Bool)
    (hd : '.' ∉ d ∧ '[' ∉ d ∧ ']' ∉ d ∧ trimSpace d ≠ [])
    (hs : '.' ∉ s ∧ '[' ∉ s ∧ ']' ∉ s ∧ trimSpace s ≠ [])
    (ht : '.' ∉ t ∧ '[' ∉ t ∧ ']' ∉ t ∧ trimSpace t ≠ []) :
    ParseQualifiedName (BuildQualifiedName t s d ub) =
      if ub then ⟨trimSpace d, trimSpace s, trimSpace t⟩
      else ⟨d, s, t⟩ := by
  have hdne : d ≠ [] := ne_nil_of_trim_ne_nil d hd.2.2.2
  have hsne : s ≠ [] := ne_nil_of_trim_ne_nil s hs.2.2.2
  have htne : t ≠ [] := ne_nil_of_trim_ne_nil t ht.2.2.2
  cases ub with
  | false =>
    rw [build_three t s d false htne hsne hdne]
    exact parse_three d s t ⟨hdne, hd.1, hd.2.1, hd.2.2.1⟩ ⟨hsne, hs.1, hs.2.1, hs.2.2.1⟩
      ⟨ht.1, ht.2.1, ht.2.2.1⟩
  | true =>
    have hcd : '.' ∉ trimSpace d ∧ '[' ∉ trimSpace d ∧ ']' ∉ trimSpace d :=
      ⟨fun hm => hd.1 (trimSpace_subset d _ hm), fun hm => hd.2.1 (trimSpace_subset d _ hm),
       fun hm => hd.2.2.1 (trimSpace_subset d _ hm)⟩
    have hcs : '.' ∉ trimSpace s ∧ '[' ∉ trimSpace s ∧ ']' ∉ trimSpace s :=
      ⟨fun hm => hs.1 (trimSpace_subset s _ hm), fun hm => hs.2.1 (trimSpace_subset s _ hm),
       fun hm => hs.2.2.1 (trimSpace_subset s _ hm)⟩
    have hct : '.' ∉ trimSpace t ∧ '[' ∉ trimSpace t ∧ ']' ∉ trimSpace t :=
      ⟨fun hm => ht.1 (trimSpace_subset t _ hm), fun hm => ht.2.1 (trimSpace_subset t _ hm),
       fun hm => ht.2.2.1 (trimSpace_subset t _ hm)⟩
    have hb : BuildQualifiedName t s d true =
        ('[' :: trimSpace d ++ [']']) ++
          '.' :: (('[' :: trimSpace s ++ [']']) ++ '.' :: ('[' :: trimSpace t ++ [']'])) := by
      rw [build_three t s d true htne hsne hdne]
      simp [bracketIdentifier_eq d hd.2.2.2 hd.2.1, bracketIdentifier_eq s hs.2.2.2 hs.2.1,
        bracketIdentifier_eq t ht.2.2.2 ht.2.1]
    have hNBd : NormalizeBrackets (trimSpace d) = trimSpace d :=
      NB_eq_self _ hcd.2.1 hcd.2.2
    have hNBs : NormalizeBrackets (trimSpace s) = trimSpace s :=
      NB_eq_self _ hcs.2.1 hcs.2.2
    have hNBt : NormalizeBrackets (trimSpace t) = trimSpace t :=
      NB_eq_self _ hct.2.1 hct.2.2
    have hnbX :
        NormalizeBrackets (('[' :: trimSpace d ++ [']']) ++
            '.' :: (('[' :: trimSpace s ++ [']']) ++ '.' :: ('[' :: trimSpace t ++ [']']))) =
          trimSpace d ++ '.' :: (trimSpace s ++ '.' :: trimSpace t) := by
      simp only [NB_append, NB_lb, NB_rb, NB_dot, List.cons_append, List.nil_append, hNBd,
        hNBs, hNBt]
      simp [NormalizeBrackets]
    rw [hb, ParseQualifiedName]
    simp only [hnbX]
    rw [splitOnDot_append_dot _ _ hcd.1, splitOnDot_append_dot _ _ hcs.1,
      splitOnDot_no_dot _ hct.1]
    rfl

/-- Every component of a parsed qualified name is free of dots and brackets. -/
theorem parse_clean (name : List Char) :
    ('.' ∉ (ParseQualifiedName name).Database ∧ '[' ∉ (ParseQualifiedName name).Database ∧
      ']' ∉ (ParseQualifiedName name).Database) ∧
    ('.' ∉ (ParseQualifiedName name).Schema ∧ '[' ∉ (ParseQualifiedName name).Schema ∧
      ']' ∉ (ParseQualifiedName name).Schema) ∧
    ('.' ∉ (ParseQualifiedName name).Table ∧ '[' ∉ (ParseQualifiedName name).Table ∧
      ']' ∉ (ParseQualifiedName name).Table) := by
  have hbr := NB_no_brackets name
  have hpiece : ∀ piece ∈ splitOnDot (NormalizeBrackets name),
      '.' ∉ piece ∧ '[' ∉ piece ∧ ']' ∉ piece := by
    intro piece hp
    exact ⟨splitOnDot_pieces_no_dot _ piece hp,
      fun hm => hbr.1 (splitOnDot_pieces_subset _ piece hp _ hm),
      fun hm => hbr.2 (splitOnDot_pieces_subset _ piece hp _ hm)⟩
  have hnil : '.' ∉ ([] : List Char) ∧ '[' ∉ ([] : List Char) ∧ ']' ∉ ([] : List Char) := by
    simp
  rcases hp : splitOnDot (NormalizeBrackets name) with _ | ⟨a, _ | ⟨b, _ | ⟨c, _ | ⟨e, rest⟩⟩⟩⟩
  · have hX : ParseQualifiedName name = ⟨[], [], []⟩ := by simp [ParseQualifiedName, hp]
    rw [hX]
    exact ⟨hnil, hnil, hnil⟩
  · have ha : a ∈ splitOnDot (NormalizeBrackets name) := by rw [hp]; simp
    have hX : ParseQualifiedName name = ⟨[], [], a⟩ := by simp [ParseQualifiedName, hp]
    rw [hX]
    exact ⟨hnil, hnil, hpiece a ha⟩
  · have ha : a ∈ splitOnDot (NormalizeBrackets name) := by rw [hp]; simp
    have hb2 : b ∈ splitOnDot (NormalizeBrackets name) := by rw [hp]; simp
    have hX : ParseQualifiedName name = ⟨[], a, b⟩ := by simp [ParseQualifiedName, hp]
    rw [hX]
    exact ⟨hnil, hpiece a ha, hpiece b hb2⟩
  · have ha : a ∈ splitOnDot (NormalizeBrackets name) := by rw [hp]; simp
    have hb2 : b ∈ splitOnDot (NormalizeBrackets name) := by rw [hp]; simp
    have hc2 : c ∈ splitOnDot (NormalizeBrackets name) := by rw [hp]; simp
    have hX : ParseQualifiedName name = ⟨a, b, c⟩ := by simp [ParseQualifiedName, hp]
    rw [hX]
    exact ⟨hpiece a ha, hpiece b hb2, hpiece c hc2⟩
  · by_cases hlen : 3 < (a :: b :: c :: e :: rest).length
    · rcases hq : (a :: b :: c :: e :: rest).drop ((a :: b :: c :: e :: rest).length - 3) with
        _ | ⟨x, _ | ⟨y, _ | ⟨z, _ | ⟨w, rest2⟩⟩⟩⟩
      · have hX : ParseQualifiedName name = ⟨[], [], []⟩ := by
          simp only [ParseQualifiedName, hp, if_pos hlen, hq]
        rw [hX]
        exact ⟨hnil, hnil, hnil⟩
      · have hX : ParseQualifiedName name = ⟨[], [], []⟩ := by
          simp only [ParseQualifiedName, hp, if_pos hlen, hq]
        rw [hX]
        exact ⟨hnil, hnil, hnil⟩
      · have hX : ParseQualifiedName name = ⟨[], [], []⟩ := by
          simp only [ParseQualifiedName, hp, if_pos hlen, hq]
        rw [hX]
        exact ⟨hnil, hnil, hnil⟩
      · have hx : x ∈ splitOnDot (NormalizeBrackets name) := by
          rw [hp]
          exact List.drop_subset _ _ (by rw [hq]; simp)
        have hy : y ∈ splitOnDot (NormalizeBrackets name) := by
          rw [hp]
          exact List.drop_subset _ _ (by rw [hq]; simp)
        have hz : z ∈ splitOnDot (NormalizeBrackets name) := by
          rw [hp]
          exact List.drop_subset _ _ (by rw [hq]; simp)
        have hX : ParseQualifiedName name = ⟨x, y, z⟩ := by
          simp only [ParseQualifiedName, hp, if_pos hlen, hq]
        rw [hX]
        exact ⟨hpiece x hx, hpiece y hy, hpiece z hz⟩
      · have hX : ParseQualifiedName name = ⟨[], [], []⟩ := by
          simp only [ParseQualifiedName, hp, if_pos hlen, hq]
        rw [hX]
        exact ⟨hnil, hnil, hnil⟩
    · have hX : ParseQualifiedName name = ⟨[], [], []⟩ := by
        simp only [ParseQualifiedName, hp, if_neg hlen]
      rw [hX]
      exact ⟨hnil, hnil, hnil⟩

/-- C10: `BuildQualifiedName` and `ParseQualifiedName` round-trip — for
non-empty components with no `.`, `[`, `]` and no leading or trailing white
space, and for either bracket mode, parsing the built name returns exactly the
original database, schema, and table. -/
theorem buildParse_roundtrip (table schema database : List Char) (useBrackets : Bool)
    (ht : table ≠ [] ∧ '.' ∉ table ∧ '[' ∉ table ∧ ']' ∉ table ∧ trimSpace table = table)
    (hs : schema ≠ [] ∧ '.' ∉ schema ∧ '[' ∉ schema ∧ ']' ∉ schema ∧
      trimSpace schema = schema)
    (hd : database ≠ [] ∧ '.' ∉ database ∧ '[' ∉ database ∧ ']' ∉ database ∧
      trimSpace database = database) :
    ParseQualifiedName (BuildQualifiedName table schema database useBrackets) =
      ⟨database, schema, table⟩ := by
  have hd' : '.' ∉ database ∧ '[' ∉ database ∧ ']' ∉ database ∧ trimSpace database ≠ [] :=
    ⟨hd.2.1, hd.2.2.1, hd.2.2.2.1, by rw [hd.2.2.2.2]; exact hd.1⟩
  have hs' : '.' ∉ schema ∧ '[' ∉ schema ∧ ']' ∉ schema ∧ trimSpace schema ≠ [] :=
    ⟨hs.2.1, hs.2.2.1, hs.2.2.2.1, by rw [hs.2.2.2.2]; exact hs.1⟩
  have ht' : '.' ∉ table ∧ '[' ∉ table ∧ ']' ∉ table ∧ trimSpace table ≠ [] :=
    ⟨ht.2.1, ht.2.2.1, ht.2.2.2.1, by rw [ht.2.2.2.2]; exact ht.1⟩
  rw [parse_build database schema table useBrackets hd' hs' ht']
  cases useBrackets with
  | false => rfl
  | true => simp [hd.2.2.2.2, hs.2.2.2.2, ht.2.2.2.2]

/-- Witness for C10: the round trip at `Users`/`dbo`/`DV` with brackets. -/
theorem buildParse_roundtrip_witness :
    ((S "Users") ≠ [] ∧ '.' ∉ (S "Users") ∧ '[' ∉ (S "Users") ∧ ']' ∉ (S "Users") ∧
      trimSpace (S "Users") = S "Users") ∧
    ParseQualifiedName (BuildQualifiedName (S "Users") (S "dbo") (S "DV") true) =
      ⟨S "DV", S "dbo", S "Users"⟩ :=
  ⟨by decide,
   buildParse_roundtrip (S "Users") (S "dbo") (S "DV") true (by decide) (by decide) (by decide)⟩

/-- Unfolding `StandardizeTableName` on a non-empty name. -/
theorem standardize_unfold (name dDB dS : List Char) (ub : Bool) (h : name ≠ []) :
    StandardizeTableName name dDB dS ub =
      BuildQualifiedName (ParseQualifiedName name).Table
        (if (ParseQualifiedName name).Schema = [] then dS else (ParseQualifiedName name).Schema)
        (if (ParseQualifiedName name).Database = [] then dDB
         else (ParseQualifiedName name).Database)
        ub := by
  rw [StandardizeTableName, if_neg h]

/-- A name built from three non-empty components is non-empty. -/
theorem build_ne_nil (t s d : List Char) (ub : Bool) (ht : t ≠ []) (hs : s ≠ [])
    (hd : d ≠ []) (hdt : trimSpace d ≠ []) (hdbr : '[' ∉ d) :
    BuildQualifiedName t s d ub ≠ [] := by
  cases ub with
  | false =>
    intro h
    rw [build_three t s d false ht hs hd] at h
    simp [List.append_eq_nil, hd] at h
  | true =>
    intro h
    rw [build_three t s d true ht hs hd, bracketIdentifier_eq d hdt hdbr] at h
    simp at h

/-- In bracket mode, building from trimmed components gives the same name as
building from the originals — `BracketIdentifier` trims anyway. -/
theorem build_trim (t s d : List Char)
    (hd : '[' ∉ d ∧ trimSpace d ≠ []) (hs : '[' ∉ s ∧ trimSpace s ≠ [])
    (ht : '[' ∉ t ∧ trimSpace t ≠ []) :
    BuildQualifiedName (trimSpace t) (trimSpace s) (trimSpace d) true =
      BuildQualifiedName t s d true := by
  have hdt : trimSpace (trimSpace d) ≠ [] := by rw [trimSpace_idem]; exact hd.2
  have hst : trimSpace (trimSpace s) ≠ [] := by rw [trimSpace_idem]; exact hs.2
  have htt : trimSpace (trimSpace t) ≠ [] := by rw [trimSpace_idem]; exact ht.2
  rw [build_three _ _ _ true (ne_nil_of_trim_ne_nil _ htt) (ne_nil_of_trim_ne_nil _ hst)
      (ne_nil_of_trim_ne_nil _ hdt),
    build_three t s d true (ne_nil_of_trim_ne_nil _ ht.2) (ne_nil_of_trim_ne_nil _ hs.2)
      (ne_nil_of_trim_ne_nil _ hd.2)]
  rw [bracketIdentifier_eq (trimSpace d) hdt (fun hm => hd.1 (trimSpace_subset d _ hm)),
    bracketIdentifier_eq (trimSpace s) hst (fun hm => hs.1 (trimSpace_subset s _ hm)),
    bracketIdentifier_eq (trimSpace t) htt (fun hm => ht.1 (trimSpace_subset t _ hm)),
    bracketIdentifier_eq d hd.2 hd.1, bracketIdentifier_eq s hs.2 hs.1,
    bracketIdentifier_eq t ht.2 ht.1]
  simp [trimSpace_idem]

/-- C9 counterexample: with name `X`, defaultDB `D`, defaultSchema empty and
brackets off, the claim's hypotheses hold — the parsed Table component is
non-empty and both defaults contain no `.`, `[`, `]` — yet standardizing twice
gives `D.D.X` while standardizing once gives `D.X`. -/
theorem standardize_idem_cex :
    (ParseQualifiedName (S "X")).Table ≠ [] ∧
    (S "D").all (fun c => !(c == '.' || c == '[' || c == ']')) = true ∧
    ([] : List Char).all (fun c => !(c == '.' || c == '[' || c == ']')) = true ∧
    StandardizeTableName (StandardizeTableName (S "X") (S "D") [] false) (S "D") [] false ≠
      StandardizeTableName (S "X") (S "D") [] false := by
  decide

/-- C9 (amended): `StandardizeTableName` is idempotent once the defaults are
non-empty (in addition to being free of `.`, `[`, `]` and not all white
space), the parsed Table component trims non-empty, and the parsed Database
and Schema components are each empty or trim non-empty. -/
theorem standardizeTableName_idem_amended (name defaultDB defaultSchema : List Char)
    (ub : Bool)
    (hdb : '.' ∉ defaultDB ∧ '[' ∉ defaultDB ∧ ']' ∉ defaultDB ∧ trimSpace defaultDB ≠ [])
    (hds : '.' ∉ defaultSchema ∧ '[' ∉ defaultSchema ∧ ']' ∉ defaultSchema ∧
      trimSpace defaultSchema ≠ [])
    (htb : trimSpace (ParseQualifiedName name).Table ≠ [])
    (hdc : (ParseQualifiedName name).Database = [] ∨
      trimSpace (ParseQualifiedName name).Database ≠ [])
    (hsc : (ParseQualifiedName name).Schema = [] ∨
      trimSpace (ParseQualifiedName name).Schema ≠ []) :
    StandardizeTableName (StandardizeTableName name defaultDB defaultSchema ub) defaultDB
        defaultSchema ub =
      StandardizeTableName name defaultDB defaultSchema ub := by
  obtain ⟨hcD, hcS, hcT⟩ := parse_clean name
  have hname : name ≠ [] := by
    intro he
    apply htb
    rw [he]
    rfl
  have hd1 : '.' ∉ (if (ParseQualifiedName name).Database = [] then defaultDB
        else (ParseQualifiedName name).Database) ∧
      '[' ∉ (if (ParseQualifiedName name).Database = [] then defaultDB
        else (ParseQualifiedName name).Database) ∧
      ']' ∉ (if (ParseQualifiedName name).Database = [] then defaultDB
        else (ParseQualifiedName name).Database) ∧
      trimSpace (if (ParseQualifiedName name).Database = [] then defaultDB
        else (ParseQualifiedName name).Database) ≠ [] := by
    by_cases h0 : (ParseQualifiedName name).Database = []
    · simp only [if_pos h0]
      exact hdb
    · simp only [if_neg h0]
      exact ⟨hcD.1, hcD.2.1, hcD.2.2, Or.resolve_left hdc h0⟩
  have hs1 : '.' ∉ (if (ParseQualifiedName name).Schema = [] then defaultSchema
        else (ParseQualifiedName name).Schema) ∧
      '[' ∉ (if (ParseQualifiedName name).Schema = [] then defaultSchema
        else (ParseQualifiedName name).Schema) ∧
      ']' ∉ (if (ParseQualifiedName name).Schema = [] then defaultSchema
        else (ParseQualifiedName name).Schema) ∧
      trimSpace (if (ParseQualifiedName name).Schema = [] then defaultSchema
        else (ParseQualifiedName name).Schema) ≠ [] := by
    by_cases h0 : (ParseQualifiedName name).Schema = []
    · simp only [if_pos h0]
      exact hds
    · simp only [if_neg h0]
      exact ⟨hcS.1, hcS.2.1, hcS.2.2, Or.resolve_left hsc h0⟩
  have ht1 : '.' ∉ (ParseQualifiedName name).Table ∧ '[' ∉ (ParseQualifiedName name).Table ∧
      ']' ∉ (ParseQualifiedName name).Table ∧ trimSpace (ParseQualifiedName name).Table ≠ [] :=
    ⟨hcT.1, hcT.2.1, hcT.2.2, htb⟩
  rw [standardize_unfold name defaultDB defaultSchema ub hname]
  have hBne := build_ne_nil (ParseQualifiedName name).Table
    (if (ParseQualifiedName name).Schema = [] then defaultSchema
     else (ParseQualifiedName name).Schema)
    (if (ParseQualifiedName name).Database = [] then defaultDB
     else (ParseQualifiedName name).Database) ub
    (ne_nil_of_trim_ne_nil _ ht1.2.2.2) (ne_nil_of_trim_ne_nil _ hs1.2.2.2)
    (ne_nil_of_trim_ne_nil _ hd1.2.2.2) hd1.2.2.2 hd1.2.1
  rw [standardize_unfold _ defaultDB defaultSchema ub hBne]
  rw [parse_build _ _ _ ub hd1 hs1 ht1]
  cases ub with
  | false =>
    simp only [Bool.false_eq_true, if_false]
    rw [if_neg (ne_nil_of_trim_ne_nil _ hs1.2.2.2), if_neg (ne_nil_of_trim_ne_nil _ hd1.2.2.2)]
  | true =>
    simp only [if_true]
    rw [if_neg hs1.2.2.2, if_neg hd1.2.2.2]
    exact build_trim _ _ _ ⟨hd1.2.1, hd1.2.2.2⟩ ⟨hs1.2.1, hs1.2.2.2⟩ ⟨ht1.2.1, ht1.2.2.2⟩

/-- Witness for the amended C9: idempotence at `sales.Orders` with defaults
`DV`/`dbo` in bracket mode. -/
theorem standardizeTableName_idem_amended_witness :
    trimSpace (ParseQualifiedName (S "sales.Orders")).Table ≠ [] ∧
    StandardizeTableName (StandardizeTableName (S "sales.Orders") (S "DV") (S "dbo") true)
        (S "DV") (S "dbo") true =
      StandardizeTableName (S "sales.Orders") (S "DV") (S "dbo") true :=
  ⟨by decide,
   standardizeTableName_idem_amended (S "sales.Orders") (S "DV") (S "dbo") true (by decide)
     (by decide) (by decide) (by decide) (by decide)⟩

/-- Folding documents through `processFile` adds, for each document, exactly
the number of its standardized explicit relations whose two endpoints carry
differing non-empty database components. -/
theorem foldl_crossdb (config : MergeConfig) (files : List (List Char × Schema))
    (acc : Schema × MergeStats) :
    (files.foldl (processFile config) acc).2.CrossDBRelations =
      acc.2.CrossDBRelations +
        (files.flatMap (fun file =>
          updateRelations file.2.Relations (dbPrefixFor config file.1)
            (schemaNameFor config file.2) config.UseBrackets)).countP crossDBPred := by
  induction files generalizing acc with
  | nil => simp
  | cons f rest ih =>
    rw [List.foldl_cons, ih]
    simp only [List.flatMap_cons, List.countP_append, processFile]
    omega

/-- C7: the merge's cross-database relation counter equals the number of
standardized explicit relations whose two sides' parsed database components
are both non-empty and differ — one increment per such relation — and the
end-to-end two-document scenario (one document's relation referencing the
other document's table across databases) yields a count of exactly one. -/
theorem mergeSchemas_crossdb_count :
    (∀ (files : List (List Char × Schema)) (config : Option MergeConfig),
      (MergeSchemasCore files config).2.CrossDBRelations =
        (files.flatMap (fun file =>
          updateRelations file.2.Relations (dbPrefixFor (resolveConfig config) file.1)
            (schemaNameFor (resolveConfig config) file.2)
            (resolveConfig config).UseBrackets)).countP crossDBPred) ∧
    (MergeSchemasCore [(S "dv_schema.json", mergeDocDV), (S "dm_schema.json", mergeDocDM)]
        none).2.CrossDBRelations = 1 := by
  constructor
  · intro files config
    simp only [MergeSchemasCore]
    rw [foldl_crossdb]
    simp [emptyStats]
  · decide
